import Mathlib

/-!
Verification of `parsercs.py` (markmoraes/rcs-to-git).

The file shallow-embeds the two core functions of the source:

* `rlogparse`  (src/parsercs.py lines 24-105): a line-oriented state machine
  that parses the output of `rlog` into per-file metadata records;
* `rcscluster` (src/parsercs.py lines 112-161): a greedy clusterer that
  flattens all revisions, sorts them, and groups them into commits.

Python values are modelled as follows: strings are `String` (Lean 4 strings
are lists of unicode scalar values, matching Python `str` code points for the
ASCII data handled here); `None`-able variables are `Option`; Python `dict`s
are insertion-ordered association lists; Python `set`s are lists used only
through membership; `datetime.timestamp()` values are `Int` seconds (the
parsed format has second resolution); a raised exception (assert failure,
strptime `ValueError`, `NameError`, `KeyError`) is `Except.error`.
-/

/-! ### Python comparison model

`rcscluster` sorts 7-tuples `(revtime, author, datetext, rcsfile, rev,
workingfile, description)` with Python `sorted`, i.e. lexicographically by
tuple comparison, strings compared by code points.  `chLt` is Python's
`str < str` on code-point lists, `ordsLe` is Python's tuple `<=` given the
element-wise comparison results in order. -/

/-- Python `list`/`str` lexicographic strict comparison on code points:
a proper prefix is smaller; otherwise the first differing element decides. -/
def chLt : List Char → List Char → Bool
  | _, [] => false
  | [], _ :: _ => true
  | a :: as, b :: bs => a.toNat < b.toNat || (a.toNat == b.toNat && chLt as bs)

/-- Python `str` strict `<`. -/
def strLt (a b : String) : Bool := chLt a.data b.data

/-- Three-way comparison of `Int` (models comparison of timestamps). -/
def icmp (a b : Int) : Ordering := if a < b then .lt else if b < a then .gt else .eq

/-- Three-way comparison of Python strings. -/
def scmp (a b : String) : Ordering := if strLt a b then .lt else if strLt b a then .gt else .eq

/-- Python tuple `<=` given the element comparisons in tuple order:
the first non-equal component decides; all-equal tuples compare `<=`. -/
def ordsLe : List Ordering → Bool
  | [] => true
  | .lt :: _ => true
  | .gt :: _ => false
  | .eq :: rest => ordsLe rest

theorem chLt_irrefl : ∀ l : List Char, chLt l l = false
  | [] => rfl
  | a :: as => by simp [chLt, chLt_irrefl as]

theorem chLt_trans : ∀ {l₁ l₂ l₃ : List Char},
    chLt l₁ l₂ = true → chLt l₂ l₃ = true → chLt l₁ l₃ = true
  | _, [], _, h₁, _ => by simp [chLt] at h₁
  | _, _ :: _, [], _, h₂ => by simp [chLt] at h₂
  | [], _ :: _, _ :: _, _, _ => rfl
  | a :: as, b :: bs, c :: cs, h₁, h₂ => by
    simp only [chLt, Bool.or_eq_true, Bool.and_eq_true, decide_eq_true_eq, beq_iff_eq] at h₁ h₂ ⊢
    rcases h₁ with h₁ | ⟨e₁, t₁⟩ <;> rcases h₂ with h₂ | ⟨e₂, t₂⟩
    · exact Or.inl (Nat.lt_trans h₁ h₂)
    · exact Or.inl (e₂ ▸ h₁)
    · exact Or.inl (e₁ ▸ h₂)
    · exact Or.inr ⟨e₁.trans e₂, chLt_trans t₁ t₂⟩

theorem chLt_connex : ∀ {l₁ l₂ : List Char},
    chLt l₁ l₂ = false → chLt l₂ l₁ = false → l₁ = l₂
  | [], [], _, _ => rfl
  | [], _ :: _, h₁, _ => by simp [chLt] at h₁
  | _ :: _, [], _, h₂ => by simp [chLt] at h₂
  | a :: as, b :: bs, h₁, h₂ => by
    simp only [chLt, Bool.or_eq_false_iff, Bool.and_eq_false_iff, decide_eq_false_iff_not,
      beq_eq_false_iff_ne, ne_eq] at h₁ h₂
    have hn : a.toNat = b.toNat := by omega
    have ha : a = b := by
      have := congrArg Char.ofNat hn
      rwa [Char.ofNat_toNat, Char.ofNat_toNat] at this
    have hs : as = bs := by
      rcases h₁.2 with h | h
      · exact absurd hn h
      · rcases h₂.2 with h' | h'
        · exact absurd hn.symm h'
        · exact chLt_connex h h'
    rw [ha, hs]

theorem chLt_asymm {l₁ l₂ : List Char} (h : chLt l₁ l₂ = true) : chLt l₂ l₁ = false := by
  cases hb : chLt l₂ l₁
  · rfl
  · have := chLt_trans h hb
    rw [chLt_irrefl] at this
    exact absurd this (by simp)

theorem strLt_trans {a b c : String} (h₁ : strLt a b = true) (h₂ : strLt b c = true) :
    strLt a c = true := chLt_trans h₁ h₂

theorem strLt_asymm {a b : String} (h : strLt a b = true) : strLt b a = false := chLt_asymm h

theorem strLt_connex {a b : String} (h₁ : strLt a b = false) (h₂ : strLt b a = false) :
    a = b := by
  exact String.ext (@chLt_connex a.data b.data h₁ h₂)

/-- Compatibility of three comparison outcomes `cmp a b`, `cmp b c`, `cmp a c`
as produced by a strict total comparison: equality substitutes, and strictness
composes. -/
def OrdComp (o₁ o₂ o₃ : Ordering) : Prop :=
  (o₁ = .eq → o₃ = o₂) ∧ (o₂ = .eq → o₃ = o₁) ∧ (o₁ = .lt → o₂ = .lt → o₃ = .lt)

theorem icmp_comp (a b c : Int) : OrdComp (icmp a b) (icmp b c) (icmp a c) := by
  unfold OrdComp icmp
  split_ifs <;> simp_all <;> omega

theorem scmp_eq {a b : String} (h : scmp a b = .eq) : a = b := by
  unfold scmp at h
  split_ifs at h with h₁ h₂
  exact strLt_connex (by simpa using h₁) (by simpa using h₂)

theorem scmp_comp (a b c : String) : OrdComp (scmp a b) (scmp b c) (scmp a c) := by
  refine ⟨fun h => by rw [scmp_eq h], fun h => by rw [scmp_eq h], fun h₁ h₂ => ?_⟩
  have l₁ : strLt a b = true := by
    unfold scmp at h₁; split_ifs at h₁ with g₁ g₂ <;> simp_all
  have l₂ : strLt b c = true := by
    unfold scmp at h₂; split_ifs at h₂ with g₁ g₂ <;> simp_all
  unfold scmp
  rw [strLt_trans l₁ l₂]
  rfl

theorem icmp_swap (a b : Int) : icmp b a = (icmp a b).swap := by
  unfold icmp
  split_ifs <;> simp_all [Ordering.swap] <;> omega

theorem scmp_swap (a b : String) : scmp b a = (scmp a b).swap := by
  unfold scmp
  split_ifs with h₁ h₂ <;> simp_all [Ordering.swap]
  · exact absurd (strLt_asymm h₂) (by simp [h₁])

theorem ordsLe_total_swap : ∀ xs : List Ordering,
    (ordsLe xs || ordsLe (xs.map Ordering.swap)) = true
  | [] => rfl
  | .lt :: _ => rfl
  | .gt :: _ => rfl
  | .eq :: rest => by simpa [ordsLe, Ordering.swap] using ordsLe_total_swap rest

theorem ordsLe_trans3 : ∀ {xs ys zs : List Ordering},
    ordsLe xs = true → ordsLe ys = true →
    xs.length = ys.length → ys.length = zs.length →
    (∀ p ∈ List.zip xs (List.zip ys zs), OrdComp p.1 p.2.1 p.2.2) →
    ordsLe zs = true
  | [], [], [], _, _, _, _, _ => rfl
  | [], _ :: _, _, _, _, hl, _, _ => by simp at hl
  | _ :: _, [], _, _, _, hl, _, _ => by simp at hl
  | _ :: _, _ :: _, [], _, _, _, hl, _ => by simp at hl
  | x :: xs, y :: ys, z :: zs, h₁, h₂, hl₁, hl₂, hcomp => by
    have hc : OrdComp x y z := hcomp (x, y, z) (by simp [List.zip])
    have hrest : ∀ p ∈ List.zip xs (List.zip ys zs), OrdComp p.1 p.2.1 p.2.2 :=
      fun p hp => hcomp p (by simp [List.zip] at hp ⊢; tauto)
    cases x with
    | gt => simp [ordsLe] at h₁
    | lt =>
      cases y with
      | gt => simp [ordsLe] at h₂
      | lt => rw [hc.2.2 rfl rfl]; rfl
      | eq => rw [hc.2.1 rfl]; rfl
    | eq =>
      have hz : z = y := hc.1 rfl
      subst hz
      cases z with
      | gt => simp [ordsLe] at h₂
      | lt => rfl
      | eq =>
        simp only [ordsLe] at h₁ h₂ ⊢
        exact ordsLe_trans3 h₁ h₂ (by simpa using hl₁) (by simpa using hl₂) hrest

/-! ### Data model for the clusterer -/

/-- One revision's metadata sub-dict as built at line 103 of the source:
keys `fdesc`, `fauth`, `fdate`, `fdt`.  `dt` models the
`datetime.timestamp()` value (line 127) in whole seconds — the parsed
format has second resolution. -/
structure RevInfo where
  desc : String
  auth : String
  date : String
  dt : Int
deriving DecidableEq, Repr

/-- One file's metadata dict as appended at line 55: keys `frfile` (rcs),
`fwfile` (file), `fhead` (head), `fdesc` (desc), `frevs` (revs); `revs` is
the insertion-ordered dict from revision id to revision data.  The clusterer
claims range over the well-formed shape in which the per-file path fields
are strings; `head` and `desc` stay optional since `rcscluster` reads
neither. -/
structure FileLog where
  rcs : String
  file : String
  head : Option String
  desc : Option String
  revs : List (String × RevInfo)
deriving DecidableEq, Repr

/-- One flattened revision event: the 7-tuple appended to `revsbydate` at
line 129: `(revtime, author, datetext, rcsfile, revisionid, workingfile,
description)`. -/
structure REvent where
  time : Int
  auth : String
  date : String
  rfile : String
  rev : String
  wfile : String
  desc : String
deriving DecidableEq, Repr

/-- Python tuple `<=` on two events, comparing the 7 components in tuple
order (this is the order `sorted` uses at line 135). -/
def evLeB (a b : REvent) : Bool :=
  ordsLe [icmp a.time b.time, scmp a.auth b.auth, scmp a.date b.date,
          scmp a.rfile b.rfile, scmp a.rev b.rev, scmp a.wfile b.wfile,
          scmp a.desc b.desc]

/-- The sort relation of `sorted(revsbydate)` as a proposition. -/
def evLe (a b : REvent) : Prop := evLeB a b = true

instance : DecidableRel evLe := fun a b => inferInstanceAs (Decidable (evLeB a b = true))

instance : IsTotal REvent evLe :=
  ⟨fun a b => by
    have h := ordsLe_total_swap [icmp a.time b.time, scmp a.auth b.auth, scmp a.date b.date,
      scmp a.rfile b.rfile, scmp a.rev b.rev, scmp a.wfile b.wfile, scmp a.desc b.desc]
    simp only [List.map, ← icmp_swap, ← scmp_swap, Bool.or_eq_true] at h
    exact h⟩

instance : IsTrans REvent evLe :=
  ⟨fun a b c h₁ h₂ => by
    unfold evLe evLeB at h₁ h₂ ⊢
    refine ordsLe_trans3 h₁ h₂ rfl rfl ?_
    intro p hp
    simp only [List.zip_cons_cons, List.zip_nil_right, List.mem_cons, List.not_mem_nil,
      or_false] at hp
    rcases hp with h | h | h | h | h | h | h <;> subst h
    · exact icmp_comp _ _ _
    · exact scmp_comp _ _ _
    · exact scmp_comp _ _ _
    · exact scmp_comp _ _ _
    · exact scmp_comp _ _ _
    · exact scmp_comp _ _ _
    · exact scmp_comp _ _ _⟩

/-- Model of `sorted(revsbydate)` (line 135).  Python `sorted` is a stable
sort under tuple comparison; tuple comparison on these 7-tuples is
antisymmetric (two tuples equal in every component are the same event), so
every correct sort produces the same list and insertion sort models it. -/
def pysorted (l : List REvent) : List REvent := List.insertionSort evLe l

/-- The flattening loop of lines 121-129: for every file dict and every
revision in dict order, one 7-tuple event. -/
def revsbydate (rcsmeta : List FileLog) : List REvent :=
  rcsmeta.flatMap fun f =>
    f.revs.map fun rv => ⟨rv.2.dt, rv.2.auth, rv.2.date, f.rcs, rv.1, f.file, rv.2.desc⟩

/-- `sys.float_info.max` (line 120) as an exact integer: DBL_MAX
`= (2^53 - 1) * 2^971`. -/
def floatInfoMax : Int := (2 ^ 53 - 1) * 2 ^ 971

/-- The running minimum of lines 120/128.  Its value is observable only as
the `prevtime` seed of the first loop iteration, whose boundary branch is
taken unconditionally (`revauth != None`). -/
def mintime (evs : List REvent) : Int := evs.foldl (fun m e => min m e.time) floatInfoMax

/-- A member tuple appended to `commit[1]` at line 158:
`(revdate, vrfile, rev, vwfile)`. -/
abbrev Member := String × String × String × String

/-- An emitted commit tuple (lines 144/160): `(prevauth, prevdate, commit)`
with `commit = [candidate messages, members]`. -/
abbrev Commit := String × String × List String × List Member

instance instDecEqCommitTail : DecidableEq (List String × List Member) :=
  fun a b => inferInstanceAs (Decidable (a = b))

instance instDecEqCommitTail2 : DecidableEq (String × List String × List Member) :=
  fun a b => inferInstanceAs (Decidable (a = b))

instance : DecidableEq Commit := fun a b => inferInstanceAs (Decidable (a = b))

instance : DecidableEq (List Commit) := fun a b => inferInstanceAs (Decidable (a = b))

/-- `descskip` (line 22). -/
def descskip : List String := ["initial revision"]

/-- Python whitespace for `str.strip()` (the ASCII set; all data handled by
the source format is ASCII). -/
def pyIsSpace (c : Char) : Bool :=
  c = ' ' || c = '\t' || c = '\n' || c = '\x0b' || c = '\x0c' || c = '\r'

/-- Python `str.strip()`. -/
def pystrip (s : String) : String :=
  ⟨((s.data.dropWhile pyIsSpace).reverse.dropWhile pyIsSpace).reverse⟩

/-- Python `str.lower()` (ASCII case mapping; ditto). -/
def pylower (s : String) : String := ⟨s.data.map Char.toLower⟩

/-- Projection of an event to the member tuple of line 158. -/
def memberOf (e : REvent) : Member := (e.date, e.rfile, e.rev, e.wfile)

/-- The boundary test of lines 138-141:
`revauth != prevauth or vrfile in files or (dt > bigtimesep or
(dt > smalltimesep and revdesc != prevdesc and rev != prevrev))`,
where `dt = revtime - prevtime` (line 136). -/
def splitCond (smalltimesep bigtimesep : Int) (prevauth : Option String) (prevtime : Int)
    (prevdesc prevrev : Option String) (files : List String) (e : REvent) : Bool :=
  decide (some e.auth ≠ prevauth) || files.contains e.rfile ||
    (decide (e.time - prevtime > bigtimesep) ||
      (decide (e.time - prevtime > smalltimesep) && decide (some e.desc ≠ prevdesc) &&
        decide (some e.rev ≠ prevrev)))

/-- The message admission of lines 154-157 on the pair
`(descs, commit[0])`: append `vwfile + ": " + revdesc` unless the
canonicalized description is boilerplate or already present. -/
def msgStep (dm : List String × List String) (e : REvent) : List String × List String :=
  let canondesc := pylower (pystrip e.desc)
  if !(descskip.contains canondesc) && !(dm.1.contains canondesc) then
    (dm.1 ++ [canondesc], dm.2 ++ [e.wfile ++ ": " ++ e.desc])
  else dm

/-- The loop state of `rcscluster` (lines 131-134): `prevtime`, `prevauth`,
`prevdate`, `prevdesc`, `prevrev`, the sets `files` and `descs`, the open
`commit` pair (`msgs`, `members`) and the accumulated `rcscommits`.  The
source leaves `descs` and `commit` unset until the boundary branch of the
first iteration (always taken, since `revauth != None`); they are seeded
empty here, which no run can observe. -/
structure CState where
  prevtime : Int
  prevauth : Option String
  prevdate : Option String
  prevdesc : Option String
  prevrev : Option String
  files : List String
  descs : List String
  msgs : List String
  members : List Member
  rcscommits : List Commit
deriving Repr

/-- Lines 142-144 (and the epilogue 159-160): `if prevauth:
rcscommits.append((prevauth, prevdate, commit))`.  Python truthiness skips
the append both for `None` (no event processed yet) and for an
empty-string author.  `prevauth` and `prevdate` are only assigned together
(lines 145-146), so the mixed-presence fallthrough is unreachable. -/
def closeCommit (st : CState) : List Commit :=
  match st.prevauth, st.prevdate with
  | some a, some d =>
    if a = "" then st.rcscommits else st.rcscommits ++ [(a, d, st.msgs, st.members)]
  | _, _ => st.rcscommits

/-- One iteration of the loop of lines 135-158. -/
def clstep (smalltimesep bigtimesep : Int) (st : CState) (e : REvent) : CState :=
  let st' :=
    if splitCond smalltimesep bigtimesep st.prevauth st.prevtime st.prevdesc st.prevrev
        st.files e then
      { st with rcscommits := closeCommit st, prevauth := some e.auth, prevdate := some e.date,
                files := [], descs := [], msgs := [], members := [] }
    else st
  let dm := msgStep (st'.descs, st'.msgs) e
  { st' with
    prevtime := e.time, prevdesc := some e.desc, prevrev := some e.rev,
    files := st'.files ++ [e.rfile],
    descs := dm.1, msgs := dm.2,
    members := st'.members ++ [memberOf e] }

/-- `rcscluster` (lines 112-161) with its default parameters
`smalltimesep = 10`, `bigtimesep = 3600`. -/
def rcscluster (rcsmeta : List FileLog) (smalltimesep : Int := 10) (bigtimesep : Int := 3600) :
    List Commit :=
  let revsbd := revsbydate rcsmeta
  let st := (pysorted revsbd).foldl (clstep smalltimesep bigtimesep)
    ⟨mintime revsbd, none, none, none, none, [], [], [], [], []⟩
  closeCommit st

/-! ### Segmentation view of the clusterer

The greedy loop partitions the sorted event list into contiguous runs: a
run ends exactly where the boundary test fires.  `segments` computes that
partition directly; `rcscluster` is proved below to equal the per-run
commits (dropping runs whose author is the empty string, mirroring the
truthiness test of `if prevauth:`). -/

/-- State of the segmentation fold: the last processed event, the open run,
and the closed runs. -/
structure SegSt where
  last : Option REvent
  cur : List REvent
  done : List (List REvent)
deriving Repr

/-- The boundary test as seen by the segmentation fold: on the first event
it fires unconditionally (`revauth != None`); afterwards the loop variables
are functions of the last event and the open run. -/
def segSplit (smalltimesep bigtimesep : Int) (ss : SegSt) (e : REvent) : Bool :=
  match ss.last with
  | none => true
  | some p => splitCond smalltimesep bigtimesep (ss.cur.head?.map REvent.auth) p.time
      (some p.desc) (some p.rev) (ss.cur.map REvent.rfile) e

/-- One segmentation step. -/
def segStep (smalltimesep bigtimesep : Int) (ss : SegSt) (e : REvent) : SegSt :=
  if segSplit smalltimesep bigtimesep ss e then
    ⟨some e, [e], if ss.cur.isEmpty then ss.done else ss.done ++ [ss.cur]⟩
  else ⟨some e, ss.cur ++ [e], ss.done⟩

/-- The partition of an event list into the greedy loop's contiguous runs. -/
def segments (smalltimesep bigtimesep : Int) (evs : List REvent) : List (List REvent) :=
  let ss := evs.foldl (segStep smalltimesep bigtimesep) ⟨none, [], []⟩
  if ss.cur.isEmpty then ss.done else ss.done ++ [ss.cur]

/-- The author a run's commit is attributed to: the author of the event
that opened it (lines 145-146). -/
def headAuth : List REvent → String
  | [] => ""
  | e :: _ => e.auth

/-- The date text a run's commit carries: the date of the opening event. -/
def headDate : List REvent → String
  | [] => ""
  | e :: _ => e.date

/-- The de-duplicated candidate messages of one run. -/
def segMsgs (s : List REvent) : List String := (s.foldl msgStep ([], [])).2

/-- The commit tuple a run produces. -/
def commitOfSeg (s : List REvent) : Commit := (headAuth s, headDate s, segMsgs s, s.map memberOf)

/-- All commits of a run list, dropping runs with empty-string author
(the `if prevauth:` truthiness). -/
def segsToCommits (segs : List (List REvent)) : List Commit :=
  (segs.filter fun s => headAuth s != "").map commitOfSeg

/-! ### Correspondence between the loop of `rcscluster` and `segments` -/

/-- The loop variables of `rcscluster` as functions of the segmentation
state: `prevtime`/`prevdesc`/`prevrev` follow the last processed event,
`prevauth`/`prevdate`/`files`/`descs`/`commit` follow the open run, and
`rcscommits` holds the commits of the closed runs. -/
def Mirrors (t0 : Int) (st : CState) (ss : SegSt) : Prop :=
  (ss.cur = [] ↔ ss.last = none) ∧
  st.prevtime = (match ss.last with | none => t0 | some p => p.time) ∧
  st.prevauth = ss.cur.head?.map REvent.auth ∧
  st.prevdate = ss.cur.head?.map REvent.date ∧
  st.prevdesc = ss.last.map REvent.desc ∧
  st.prevrev = ss.last.map REvent.rev ∧
  st.files = ss.cur.map REvent.rfile ∧
  (st.descs, st.msgs) = ss.cur.foldl msgStep ([], []) ∧
  st.members = ss.cur.map memberOf ∧
  st.rcscommits = segsToCommits ss.done

theorem segsToCommits_append (s₁ s₂ : List (List REvent)) :
    segsToCommits (s₁ ++ s₂) = segsToCommits s₁ ++ segsToCommits s₂ := by
  simp [segsToCommits, List.filter_append]

theorem closeCommit_mirrors {t0 : Int} {st : CState} {ss : SegSt} (h : Mirrors t0 st ss) :
    closeCommit st = segsToCommits (if ss.cur.isEmpty then ss.done else ss.done ++ [ss.cur]) := by
  obtain ⟨hiff, _, hauth, hdate, _, _, _, hdm, hmem, hdone⟩ := h
  cases hcur : ss.cur with
  | nil =>
    have hlast : ss.last = none := hiff.mp hcur
    rw [hcur] at hauth hdate
    simp only [List.head?, Option.map] at hauth hdate
    simp only [closeCommit, hauth, hdone, hcur, List.isEmpty_nil, if_true]
  | cons x tl =>
    rw [hcur] at hauth hdate hdm hmem
    simp only [List.head?, Option.map] at hauth hdate
    simp only [hcur, List.isEmpty_cons, if_false, Bool.false_eq_true]
    rw [segsToCommits_append, closeCommit, hauth, hdate]
    have hmsgs : st.msgs = segMsgs (x :: tl) := by
      have := congrArg Prod.snd hdm
      simpa [segMsgs] using this
    by_cases hx : x.auth = ""
    · simp [hx, hdone, segsToCommits, headAuth]
    · simp only [hx, if_false]
      simp [segsToCommits, headAuth, hx, commitOfSeg, headDate, hdone, hmsgs, hmem]

theorem mirrors_step (sm bg t0 : Int) (st : CState) (ss : SegSt) (e : REvent)
    (h : Mirrors t0 st ss) : Mirrors t0 (clstep sm bg st e) (segStep sm bg ss e) := by
  obtain ⟨hiff, htime, hauth, hdate, hdesc, hrev, hfiles, hdm, hmem, hdone⟩ := h
  have hdescs : st.descs = (ss.cur.foldl msgStep ([], [])).1 := congrArg Prod.fst hdm
  have hmsgs : st.msgs = (ss.cur.foldl msgStep ([], [])).2 := congrArg Prod.snd hdm
  have hsplit : splitCond sm bg st.prevauth st.prevtime st.prevdesc st.prevrev st.files e =
      segSplit sm bg ss e := by
    cases hlast : ss.last with
    | none =>
      have hcur : ss.cur = [] := hiff.mpr hlast
      rw [hlast] at htime
      rw [hcur] at hauth
      simp only [List.head?, Option.map] at hauth
      simp [segSplit, splitCond, hauth, hlast]
    | some p =>
      rw [hlast] at htime hdesc hrev
      simp only [Option.map] at hdesc hrev
      simp [segSplit, splitCond, htime, hauth, hdesc, hrev, hfiles, hlast]
  cases hs : segSplit sm bg ss e with
  | true =>
    rw [hs] at hsplit
    have hclose := closeCommit_mirrors ⟨hiff, htime, hauth, hdate, hdesc, hrev, hfiles,
      hdm, hmem, hdone⟩
    refine ⟨?_, ?_, ?_, ?_, ?_, ?_, ?_, ?_, ?_, ?_⟩ <;>
      simp [clstep, segStep, hs, hsplit, hclose, msgStep]
  | false =>
    rw [hs] at hsplit
    have hlast : ∃ p, ss.last = some p := by
      cases hl : ss.last with
      | none => rw [segSplit, hl] at hs; exact absurd hs (by simp)
      | some p => exact ⟨p, rfl⟩
    obtain ⟨p, hlast⟩ := hlast
    have hcur : ss.cur ≠ [] := fun hc => by
      rw [hiff.mp hc] at hlast; exact absurd hlast (by simp)
    obtain ⟨x, tl, hxtl⟩ : ∃ x tl, ss.cur = x :: tl := by
      cases hc : ss.cur with
      | nil => exact absurd hc hcur
      | cons x tl => exact ⟨x, tl, rfl⟩
    have hcl : clstep sm bg st e =
        { st with
            prevtime := e.time, prevdesc := some e.desc, prevrev := some e.rev,
            files := st.files ++ [e.rfile],
            descs := (msgStep (st.descs, st.msgs) e).1,
            msgs := (msgStep (st.descs, st.msgs) e).2,
            members := st.members ++ [memberOf e] } := by
      rw [clstep]
      simp only [hsplit, Bool.false_eq_true, if_false]
    have hstep : segStep sm bg ss e = ⟨some e, ss.cur ++ [e], ss.done⟩ := by
      rw [segStep]
      simp only [hs, Bool.false_eq_true, if_false]
    rw [hcl, hstep]
    refine ⟨by simp [hxtl], by simp, ?_, ?_, by simp, by simp, ?_, ?_, ?_, by simpa using hdone⟩
    · simpa [hxtl, List.head?] using hauth
    · simpa [hxtl, List.head?] using hdate
    · simp [hfiles, hxtl]
    · simp only [List.foldl_append, List.foldl_cons, List.foldl_nil, ← hdm]
    · simp [hmem, hxtl]

theorem mirrors_fold (sm bg t0 : Int) : ∀ (evs : List REvent) (st : CState) (ss : SegSt),
    Mirrors t0 st ss →
    Mirrors t0 (evs.foldl (clstep sm bg) st) (evs.foldl (segStep sm bg) ss)
  | [], _, _, h => h
  | e :: evs, st, ss, h => mirrors_fold sm bg t0 evs _ _ (mirrors_step sm bg t0 st ss e h)

theorem mirrors_init (t0 : Int) :
    Mirrors t0 ⟨t0, none, none, none, none, [], [], [], [], []⟩ ⟨none, [], []⟩ :=
  ⟨by simp, rfl, rfl, rfl, rfl, rfl, rfl, rfl, rfl, rfl⟩

/-- The grouping pass of `rcscluster` equals the per-run commits of the
greedy segmentation of the sorted event list. -/
theorem rcscluster_eq_segsToCommits (rm : List FileLog) (sm bg : Int) :
    rcscluster rm sm bg = segsToCommits (segments sm bg (pysorted (revsbydate rm))) := by
  have h := mirrors_fold sm bg (mintime (revsbydate rm)) (pysorted (revsbydate rm)) _ _
    (mirrors_init (mintime (revsbydate rm)))
  exact closeCommit_mirrors h

/-- All events a segmentation state has consumed, in order. -/
def segJoin (ss : SegSt) : List REvent := ss.done.flatten ++ ss.cur

theorem segJoin_step (sm bg : Int) (ss : SegSt) (e : REvent) :
    segJoin (segStep sm bg ss e) = segJoin ss ++ [e] := by
  rw [segStep]
  cases segSplit sm bg ss e with
  | false => simp [segJoin]
  | true =>
    simp only [if_true]
    cases hc : ss.cur.isEmpty with
    | true =>
      rw [List.isEmpty_iff] at hc
      simp [segJoin, hc]
    | false => simp [segJoin, List.flatten_append]

theorem segJoin_fold (sm bg : Int) : ∀ (evs : List REvent) (ss : SegSt),
    segJoin (evs.foldl (segStep sm bg) ss) = segJoin ss ++ evs
  | [], ss => by simp
  | e :: evs, ss => by
    rw [List.foldl_cons, segJoin_fold sm bg evs, segJoin_step]
    simp

/-- The runs of the segmentation concatenate back to the input list. -/
theorem segments_flatten (sm bg : Int) (evs : List REvent) :
    (segments sm bg evs).flatten = evs := by
  have h := segJoin_fold sm bg evs ⟨none, [], []⟩
  simp only [segJoin, List.flatten_nil, List.nil_append] at h
  rw [segments]
  cases hc : (evs.foldl (segStep sm bg) ⟨none, [], []⟩).cur.isEmpty with
  | true =>
    simp only [if_true]
    rw [List.isEmpty_iff] at hc
    rw [hc, List.append_nil] at h
    exact h
  | false =>
    simp only [if_false, Bool.false_eq_true]
    rw [List.flatten_append]
    simpa using h

/-- Every run of the segmentation is nonempty, single-author (the author of
its opening event), and repeats no repository file path. -/
def goodSeg (s : List REvent) : Prop :=
  s ≠ [] ∧ (∀ e ∈ s, e.auth = headAuth s) ∧ (s.map REvent.rfile).Nodup

def SegInv (ss : SegSt) : Prop :=
  (ss.cur = [] ↔ ss.last = none) ∧ (∀ s ∈ ss.done, goodSeg s) ∧ (ss.cur ≠ [] → goodSeg ss.cur)

theorem segInv_step (sm bg : Int) (ss : SegSt) (e : REvent) (h : SegInv ss) :
    SegInv (segStep sm bg ss e) := by
  obtain ⟨hiff, hdone, hcur⟩ := h
  rw [segStep]
  cases hs : segSplit sm bg ss e with
  | true =>
    simp only [if_true]
    refine ⟨by simp, ?_, fun _ => ⟨by simp, by simp [headAuth], by simp⟩⟩
    intro s hsmem
    cases hc : ss.cur.isEmpty with
    | true => rw [hc] at hsmem; simp only [if_true] at hsmem; exact hdone s hsmem
    | false =>
      rw [hc] at hsmem
      simp only [if_false, Bool.false_eq_true] at hsmem
      rcases List.mem_append.mp hsmem with hmem | hmem
      · exact hdone s hmem
      · rw [List.mem_singleton] at hmem
        subst hmem
        exact hcur (by simpa using hc)
  | false =>
    have hlast : ∃ p, ss.last = some p := by
      cases hl : ss.last with
      | none => rw [segSplit, hl] at hs; exact absurd hs (by simp)
      | some p => exact ⟨p, rfl⟩
    obtain ⟨p, hlast⟩ := hlast
    have hcne : ss.cur ≠ [] := fun hc => by
      rw [hiff.mp hc] at hlast; exact absurd hlast (by simp)
    obtain ⟨x, tl, hxtl⟩ : ∃ x tl, ss.cur = x :: tl := by
      cases hc : ss.cur with
      | nil => exact absurd hc hcne
      | cons x tl => exact ⟨x, tl, rfl⟩
    obtain ⟨-, hall, hnd⟩ := hcur hcne
    rw [segSplit, hlast, hxtl] at hs
    simp only [splitCond, List.head?, Option.map, Bool.or_eq_false_iff, Bool.and_eq_false_iff,
      decide_eq_false_iff_not, ne_eq, not_not, Option.some.injEq] at hs
    have hea : e.auth = x.auth := hs.1.1
    have herf : e.rfile ∉ (x :: tl).map REvent.rfile := by simpa using hs.1.2
    simp only [if_false, Bool.false_eq_true]
    refine ⟨by simp [hxtl], fun s hsm => hdone s hsm, fun _ => ?_⟩
    rw [hxtl] at hall hnd ⊢
    refine ⟨by simp, ?_, ?_⟩
    · intro y hy
      have hy' : y = x ∨ y ∈ tl ∨ y = e := by simpa using hy
      simp only [headAuth, List.cons_append]
      rcases hy' with h | h | h
      · rw [h]
      · have := hall y (by simp [h])
        simpa [headAuth] using this
      · rw [h]; exact hea
    · show (((x :: tl) ++ [e]).map REvent.rfile).Nodup
      rw [List.map_append, List.nodup_append]
      refine ⟨hnd, List.nodup_singleton _, ?_⟩
      intro y hy
      simp only [List.map_cons, List.map_nil, List.mem_singleton]
      intro hn
      subst hn
      exact herf hy

theorem segInv_fold (sm bg : Int) : ∀ (evs : List REvent) (ss : SegSt), SegInv ss →
    SegInv (evs.foldl (segStep sm bg) ss)
  | [], _, h => h
  | e :: evs, ss, h => segInv_fold sm bg evs _ (segInv_step sm bg ss e h)

theorem goodSeg_of_mem_segments {sm bg : Int} {evs s : List REvent}
    (hs : s ∈ segments sm bg evs) : goodSeg s := by
  obtain ⟨hiff, hdone, hcur⟩ :=
    segInv_fold sm bg evs ⟨none, [], []⟩ ⟨by simp, by simp, by simp⟩
  rw [segments] at hs
  cases hc : (evs.foldl (segStep sm bg) ⟨none, [], []⟩).cur.isEmpty with
  | true => rw [hc] at hs; simp only [if_true] at hs; exact hdone s hs
  | false =>
    rw [hc] at hs
    simp only [if_false, Bool.false_eq_true] at hs
    rcases List.mem_append.mp hs with hmem | hmem
    · exact hdone s hmem
    · rw [List.mem_singleton] at hmem
      subst hmem
      exact hcur (by simpa using hc)

/-- Every commit emitted by `rcscluster` is the commit of one greedy run of
the sorted event list, and that run is nonempty, single-author and repeats
no repository path. -/
theorem exists_seg_of_mem_rcscluster {rm : List FileLog} {sm bg : Int} {c : Commit}
    (hc : c ∈ rcscluster rm sm bg) :
    ∃ s ∈ segments sm bg (pysorted (revsbydate rm)),
      goodSeg s ∧ headAuth s ≠ "" ∧ c = commitOfSeg s := by
  rw [rcscluster_eq_segsToCommits, segsToCommits] at hc
  rcases List.mem_map.mp hc with ⟨s, hsf, hcs⟩
  rcases List.mem_filter.mp hsf with ⟨hmem, hpred⟩
  exact ⟨s, hmem, goodSeg_of_mem_segments hmem, by simpa using hpred, hcs.symm⟩

theorem segStep_last (sm bg : Int) (ss : SegSt) (e : REvent) :
    (segStep sm bg ss e).last = some e := by
  rw [segStep]; cases segSplit sm bg ss e <;> simp

theorem segStep_cur_ne (sm bg : Int) (ss : SegSt) (e : REvent) :
    (segStep sm bg ss e).cur ≠ [] := by
  rw [segStep]; cases segSplit sm bg ss e <;> simp

theorem foldl_segStep_cur_ne (sm bg : Int) : ∀ (l : List REvent) (ss : SegSt),
    ss.cur ≠ [] → (l.foldl (segStep sm bg) ss).cur ≠ []
  | [], _, h => h
  | e :: l, ss, _ => foldl_segStep_cur_ne sm bg l _ (segStep_cur_ne sm bg ss e)

theorem foldl_segStep_last (sm bg : Int) (l : List REvent) (a : REvent) (ss : SegSt) :
    ((l ++ [a]).foldl (segStep sm bg) ss).last = some a := by
  rw [List.foldl_append, List.foldl_cons, List.foldl_nil]
  exact segStep_last sm bg _ a

/-- The closed runs only ever grow at the tail: a fold started with closed
runs `d` produces `d ++ δ` where `δ` is independent of `d`. -/
theorem foldl_segStep_done (sm bg : Int) : ∀ (l : List REvent) (la : Option REvent)
    (cur : List REvent) (d : List (List REvent)),
    l.foldl (segStep sm bg) ⟨la, cur, d⟩ =
      { last := (l.foldl (segStep sm bg) ⟨la, cur, []⟩).last,
        cur := (l.foldl (segStep sm bg) ⟨la, cur, []⟩).cur,
        done := d ++ (l.foldl (segStep sm bg) ⟨la, cur, []⟩).done }
  | [], la, cur, d => by simp
  | e :: l, la, cur, d => by
    rw [List.foldl_cons, List.foldl_cons]
    have hsplit : segSplit sm bg ⟨la, cur, d⟩ e = segSplit sm bg ⟨la, cur, []⟩ e := rfl
    rw [segStep, segStep, hsplit]
    cases segSplit sm bg ⟨la, cur, []⟩ e with
    | false =>
      simp only [if_false, Bool.false_eq_true]
      rw [foldl_segStep_done sm bg l (some e) (cur ++ [e]) d]
    | true =>
      simp only [if_true]
      cases hc : cur.isEmpty with
      | true =>
        simp only [if_true]
        rw [foldl_segStep_done sm bg l (some e) [e] d]
      | false =>
        simp only [if_false, Bool.false_eq_true, List.nil_append]
        rw [foldl_segStep_done sm bg l (some e) [e] (d ++ [cur]),
          foldl_segStep_done sm bg l (some e) [e] [cur]]
        simp

/-- If two consecutive events of the processed list are separated by more
than `bigtimesep`, the segmentation closes a run exactly between them: the
runs split into a prefix flattening to everything up to and including the
first event and a suffix flattening to the rest. -/
theorem segments_cut (sm bg : Int) (l₁ l₂ : List REvent) (a b : REvent)
    (hgap : b.time - a.time > bg) :
    ∃ pre suf, segments sm bg (l₁ ++ a :: b :: l₂) = pre ++ suf ∧ pre ≠ [] ∧ suf ≠ [] ∧
      pre.flatten = l₁ ++ [a] ∧ suf.flatten = b :: l₂ := by
  have hdecomp : l₁ ++ a :: b :: l₂ = (l₁ ++ [a]) ++ (b :: l₂) := by simp
  set ss₁ := (l₁ ++ [a]).foldl (segStep sm bg) ⟨none, [], []⟩ with hss₁
  have hlast : ss₁.last = some a := foldl_segStep_last sm bg l₁ a _
  have hcne : ss₁.cur ≠ [] := by
    have : ss₁ = segStep sm bg (l₁.foldl (segStep sm bg) ⟨none, [], []⟩) a := by
      rw [hss₁, List.foldl_append, List.foldl_cons, List.foldl_nil]
    rw [this]
    exact segStep_cur_ne sm bg _ a
  have hjoin : ss₁.done.flatten ++ ss₁.cur = l₁ ++ [a] := by
    have h := segJoin_fold sm bg (l₁ ++ [a]) ⟨none, [], []⟩
    rw [← hss₁] at h
    simpa [segJoin] using h
  have hsplitb : segSplit sm bg ss₁ b = true := by
    rw [segSplit, hlast]
    simp [splitCond, hgap]
  have hstepb : segStep sm bg ss₁ b = ⟨some b, [b], ss₁.done ++ [ss₁.cur]⟩ := by
    rw [segStep, hsplitb]
    simp only [if_true, List.isEmpty_eq_false.mpr hcne, Bool.false_eq_true, if_false]
  set r := l₂.foldl (segStep sm bg) ⟨some b, [b], []⟩ with hr
  have hfold : (l₁ ++ a :: b :: l₂).foldl (segStep sm bg) ⟨none, [], []⟩ =
      ⟨r.last, r.cur, (ss₁.done ++ [ss₁.cur]) ++ r.done⟩ := by
    rw [hdecomp, List.foldl_append, ← hss₁, List.foldl_cons, hstepb,
      foldl_segStep_done sm bg l₂ (some b) [b] (ss₁.done ++ [ss₁.cur]), ← hr]
  have hrcur : r.cur ≠ [] := foldl_segStep_cur_ne sm bg l₂ _ (by simp)
  have hrjoin : r.done.flatten ++ r.cur = b :: l₂ := by
    have h := segJoin_fold sm bg l₂ ⟨some b, [b], []⟩
    rw [← hr] at h
    simpa [segJoin] using h
  refine ⟨ss₁.done ++ [ss₁.cur], r.done ++ [r.cur], ?_, by simp, by simp, ?_, ?_⟩
  · simp only [segments]
    rw [hfold]
    simp only [List.isEmpty_eq_false.mpr hrcur, Bool.false_eq_true, if_false]
    simp [List.append_assoc]
  · rw [List.flatten_append]
    simpa using hjoin
  · rw [List.flatten_append]
    simpa using hrjoin

/-! ### Partition of the members -/

theorem flatMap_members_map_commitOfSeg : ∀ segs : List (List REvent),
    ((segs.map commitOfSeg).flatMap fun c => c.2.2.2) = segs.flatten.map memberOf
  | [] => rfl
  | s :: rest => by
    simp only [List.map_cons, List.flatMap_cons, List.flatten_cons, List.map_append,
      flatMap_members_map_commitOfSeg rest]
    rfl

/-- When every flattened event carries a nonempty author, no commit is
dropped by the `if prevauth:` truthiness and the concatenated members of
the output are, as a multiset, exactly the flattened
`(date, repoPath, revisionId, workingPath)` tuples of the input. -/
theorem rcscluster_members_perm (rm : List FileLog) (sm bg : Int)
    (h : ∀ e ∈ revsbydate rm, e.auth ≠ "") :
    ((rcscluster rm sm bg).flatMap fun c => c.2.2.2).Perm
      ((revsbydate rm).map memberOf) := by
  rw [rcscluster_eq_segsToCommits, segsToCommits]
  have hfilter : ((segments sm bg (pysorted (revsbydate rm))).filter
      fun s => headAuth s != "") = segments sm bg (pysorted (revsbydate rm)) := by
    apply List.filter_eq_self.mpr
    intro s hsmem
    obtain ⟨hne, -, -⟩ := goodSeg_of_mem_segments hsmem
    obtain ⟨x, tl, rfl⟩ : ∃ x tl, s = x :: tl := by
      cases hc : s with
      | nil => exact absurd hc hne
      | cons x tl => exact ⟨x, tl, rfl⟩
    have hx : x ∈ (segments sm bg (pysorted (revsbydate rm))).flatten :=
      List.mem_flatten.mpr ⟨x :: tl, hsmem, by simp⟩
    rw [segments_flatten] at hx
    have hx' : x ∈ revsbydate rm := (List.perm_insertionSort evLe _).mem_iff.mp hx
    have := h x hx'
    simpa [headAuth]
  rw [hfilter, flatMap_members_map_commitOfSeg, segments_flatten]
  exact (List.perm_insertionSort evLe _).map memberOf

/-! ### Claim C1 -/

/-- The failing input for the exhaustive-partition claim: one parsed file
whose single revision carries the empty author string.  (`rlogparse`
produces the empty author from the rlog line
`date: 2020/02/19 10:00:00;  author: ;  state: Exp;`.) -/
def fileLogEmptyAuth : FileLog :=
  ⟨"f,v", "f", some "1.1", none, [("1.1", ⟨"m\n", "", "2020/02/19 10:00:00", 1582106400⟩)]⟩

/-- C1: the claimed exhaustive partition FAILS on the code.  The input
`[fileLogEmptyAuth]` flattens to exactly one revision event, yet
`rcscluster` returns no commit at all: the truthiness test `if prevauth:`
(lines 142/159) treats the empty-string author like the initial `None`
and silently drops the whole open commit, so the revision appears in no
commit's members. -/
theorem C1_empty_author_drops_revision :
    rcscluster [fileLogEmptyAuth] 10 3600 = [] ∧
    (revsbydate [fileLogEmptyAuth]).map memberOf =
      [("2020/02/19 10:00:00", "f,v", "1.1", "f")] := by
  constructor
  · decide
  · decide

/-! ### Claim C2 -/

/-- Two different RCS files sharing one working file name, same author,
same description, one second apart: they merge into one commit. -/
def rmC2 : List FileLog :=
  [⟨"d1/x,v", "x", some "1.1", none,
    [("1.1", ⟨"m\n", "alice", "2020/02/19 10:00:00", 1582106400⟩)]⟩,
   ⟨"d2/x,v", "x", some "1.1", none,
    [("1.1", ⟨"m\n", "alice", "2020/02/19 10:00:01", 1582106401⟩)]⟩]

/-- C2 counterexample: a working file path CAN appear twice within one
commit's members.  The used-set of the clusterer holds repository paths
(line 138 `vrfile in files`, line 153 `files.add(vrfile)`), not working
paths, so two RCS files with the same working name pass the test. -/
theorem C2_wfile_repeats_counterexample :
    (rcscluster rmC2 10 3600).map (fun c => (c.2.2.2).map fun m => m.2.2.2) = [["x", "x"]] ∧
    ¬ ∀ c ∈ rcscluster rmC2 10 3600, ((c.2.2.2).map fun m => m.2.2.2).Nodup := by
  constructor
  · decide
  · decide

/-- C2 amended: within every commit produced by `rcscluster` the
*repository* file paths of the members are pairwise distinct; the
clusterer refuses an event whose repository path is already in the open
commit's used-set. -/
theorem C2_no_repeat_rcsfile (rm : List FileLog) (smalltimesep bigtimesep : Int) (c : Commit)
    (hc : c ∈ rcscluster rm smalltimesep bigtimesep) :
    ((c.2.2.2).map fun m => m.2.1).Nodup := by
  obtain ⟨s, -, ⟨-, -, hnd⟩, -, hcs⟩ := exists_seg_of_mem_rcscluster hc
  rw [hcs]
  show ((s.map memberOf).map fun m => m.2.1).Nodup
  rw [List.map_map]
  have hf : ((fun m : Member => m.2.1) ∘ memberOf) = REvent.rfile := rfl
  rw [hf]
  exact hnd

/-- The single commit produced on `rmC2`. -/
def commitC2 : Commit :=
  ("alice", "2020/02/19 10:00:00", ["x: m\n"],
   [("2020/02/19 10:00:00", "d1/x,v", "1.1", "x"),
    ("2020/02/19 10:00:01", "d2/x,v", "1.1", "x")])

theorem C2_no_repeat_rcsfile_witness :
    ((commitC2.2.2.2).map fun m => m.2.1).Nodup :=
  C2_no_repeat_rcsfile rmC2 10 3600 commitC2 (by decide)

/-! ### Claim C3 -/

/-- The spec's concrete scenario: revisions of `a.c` at `T` and `T+5`
seconds, a revision of `b.c` at `T+8` seconds, all by `alice`
(`T = 1582106400`). -/
def rmC3 : List FileLog :=
  [⟨"a.c,v", "a.c", some "1.2", none,
    [("1.1", ⟨"fix one\n", "alice", "2020/02/19 10:00:00", 1582106400⟩),
     ("1.2", ⟨"fix two\n", "alice", "2020/02/19 10:00:05", 1582106405⟩)]⟩,
   ⟨"b.c,v", "b.c", some "1.1", none,
    [("1.1", ⟨"fix three\n", "alice", "2020/02/19 10:00:08", 1582106408⟩)]⟩]

/-- C3 counterexample: with default parameters the scenario does NOT
produce one commit — the second `a.c` revision repeats the repository file
of the open commit (line 138 `vrfile in files`), which forces a split
regardless of the 5-second gap. -/
theorem C3_not_one_commit : (rcscluster rmC3 10 3600).length ≠ 1 := by decide

/-- C3 amended: the scenario produces exactly two commits, both authored
`alice`: the first holds the first `a.c` revision alone, the second holds
the second `a.c` revision together with the `b.c` revision. -/
theorem C3_two_commits :
    rcscluster rmC3 10 3600 =
      [("alice", "2020/02/19 10:00:00", ["a.c: fix one\n"],
        [("2020/02/19 10:00:00", "a.c,v", "1.1", "a.c")]),
       ("alice", "2020/02/19 10:00:05", ["a.c: fix two\n", "b.c: fix three\n"],
        [("2020/02/19 10:00:05", "a.c,v", "1.2", "a.c"),
         ("2020/02/19 10:00:08", "b.c,v", "1.1", "b.c")])] := by
  decide

/-! ### Claim C4 -/

/-- Two events with identical timestamps, input order `bob` before
`alice`. -/
def rmC4 : List FileLog :=
  [⟨"b,v", "b", none, none, [("1.1", ⟨"mb\n", "bob", "2020/02/19 10:00:00", 1582106400⟩)]⟩,
   ⟨"a,v", "a", none, none, [("1.1", ⟨"ma\n", "alice", "2020/02/19 10:00:00", 1582106400⟩)]⟩]

/-- C4 counterexample: on a timestamp tie the sort does NOT keep natural
input order — `sorted(revsbydate)` (line 135) compares whole 7-tuples, so
the tie is broken by the second component (the author), reordering `bob`
before `alice` to `alice` before `bob`. -/
theorem C4_tie_not_input_order :
    (revsbydate rmC4).map REvent.time = [1582106400, 1582106400] ∧
    (revsbydate rmC4).map REvent.auth = ["bob", "alice"] ∧
    (pysorted (revsbydate rmC4)).map REvent.auth = ["alice", "bob"] := by
  refine ⟨by decide, by decide, by decide⟩

/-- C4 amended: the flattened event list is sorted lexicographically by
the entire event tuple `(timestamp, author, datetext, repoPath,
revisionId, workingPath, description)` — timestamp first, ties broken by
the later components; the result is a permutation of the input and is
sorted under that tuple order (deterministically: full-tuple ties are
identical events). -/
theorem C4_sorted_lex (l : List REvent) :
    (pysorted l).Perm l ∧ (pysorted l).Sorted evLe :=
  ⟨List.perm_insertionSort evLe l, List.sorted_insertionSort evLe l⟩

/-! ### Claim C5 -/

/-- C5: whenever two events are adjacent in the sorted order and the
candidate's gap to the most recently admitted event exceeds `bigtimesep`,
the clusterer closes the open commit exactly there: the greedy runs split
into a prefix whose events end with `a` and a suffix whose events start
with `b`, and the emitted commits split accordingly — `a` and `b` are
never members of one commit, regardless of author, description or
revision-id equality. -/
theorem C5_big_gap_boundary (rm : List FileLog) (smalltimesep bigtimesep : Int)
    (l₁ l₂ : List REvent) (a b : REvent)
    (hsort : pysorted (revsbydate rm) = l₁ ++ a :: b :: l₂)
    (hgap : b.time - a.time > bigtimesep) :
    ∃ pre suf, segments smalltimesep bigtimesep (pysorted (revsbydate rm)) = pre ++ suf ∧
      pre ≠ [] ∧ suf ≠ [] ∧ pre.flatten = l₁ ++ [a] ∧ suf.flatten = b :: l₂ ∧
      rcscluster rm smalltimesep bigtimesep = segsToCommits pre ++ segsToCommits suf := by
  obtain ⟨pre, suf, hseg, hp, hsf, hf₁, hf₂⟩ :=
    segments_cut smalltimesep bigtimesep l₁ l₂ a b hgap
  refine ⟨pre, suf, by rw [hsort]; exact hseg, hp, hsf, hf₁, hf₂, ?_⟩
  rw [rcscluster_eq_segsToCommits, hsort, hseg, segsToCommits_append]

/-- Two same-author events 5000 s apart (`> 3600`). -/
def rmC5 : List FileLog :=
  [⟨"a,v", "a", none, none,
    [("1.1", ⟨"m\n", "alice", "2020/02/19 10:00:00", 1582106400⟩)]⟩,
   ⟨"b,v", "b", none, none,
    [("1.1", ⟨"m\n", "alice", "2020/02/19 11:23:20", 1582111400⟩)]⟩]

def evC5a : REvent := ⟨1582106400, "alice", "2020/02/19 10:00:00", "a,v", "1.1", "a", "m\n"⟩

def evC5b : REvent := ⟨1582111400, "alice", "2020/02/19 11:23:20", "b,v", "1.1", "b", "m\n"⟩

theorem C5_big_gap_boundary_witness :
    ∃ pre suf, segments 10 3600 (pysorted (revsbydate rmC5)) = pre ++ suf ∧
      pre ≠ [] ∧ suf ≠ [] ∧ pre.flatten = [] ++ [evC5a] ∧ suf.flatten = evC5b :: [] ∧
      rcscluster rmC5 10 3600 = segsToCommits pre ++ segsToCommits suf :=
  C5_big_gap_boundary rmC5 10 3600 [] [] evC5a evC5b (by decide) (by decide)

/-! ### Claim C6 -/

/-- C6: every commit of the sequential greedy clusterer is built from one
contiguous run of flattened input events, its member tuples are exactly the
projections of those events, and every one of those events carries the
commit's attributed author — the boundary test (line 138
`revauth != prevauth`) never admits a foreign-author event. -/
theorem C6_author_purity (rm : List FileLog) (smalltimesep bigtimesep : Int) (c : Commit)
    (hc : c ∈ rcscluster rm smalltimesep bigtimesep) :
    ∃ s : List REvent, s ≠ [] ∧ (∀ e ∈ s, e ∈ revsbydate rm) ∧ c = commitOfSeg s ∧
      c.2.2.2 = s.map memberOf ∧ ∀ e ∈ s, e.auth = c.1 := by
  obtain ⟨s, hmem, ⟨hne, hall, -⟩, -, hcs⟩ := exists_seg_of_mem_rcscluster hc
  refine ⟨s, hne, ?_, hcs, by rw [hcs]; rfl, ?_⟩
  · intro e he
    have hj : e ∈ (segments smalltimesep bigtimesep (pysorted (revsbydate rm))).flatten :=
      List.mem_flatten.mpr ⟨s, hmem, he⟩
    rw [segments_flatten] at hj
    exact (List.perm_insertionSort evLe (revsbydate rm)).mem_iff.mp hj
  · intro e he
    rw [hcs]
    exact hall e he

/-- The first commit produced on `rmC3`. -/
def commitC3a : Commit :=
  ("alice", "2020/02/19 10:00:00", ["a.c: fix one\n"],
   [("2020/02/19 10:00:00", "a.c,v", "1.1", "a.c")])

theorem C6_author_purity_witness :
    ∃ s : List REvent, s ≠ [] ∧ (∀ e ∈ s, e ∈ revsbydate rmC3) ∧ commitC3a = commitOfSeg s ∧
      commitC3a.2.2.2 = s.map memberOf ∧ ∀ e ∈ s, e.auth = commitC3a.1 :=
  C6_author_purity rmC3 10 3600 commitC3a (by decide)

/-! ### Claim C10 -/

/-- The fields of a file record that `rcscluster` reads (lines 122-124):
the repository path, the working path, and the revisions dict —
`headRevisionId` and the overall description are never touched. -/
def coreOf (f : FileLog) : String × String × List (String × RevInfo) := (f.rcs, f.file, f.revs)

theorem revsbydate_congr : ∀ {rm₁ rm₂ : List FileLog},
    rm₁.map coreOf = rm₂.map coreOf → revsbydate rm₁ = revsbydate rm₂
  | [], [], _ => rfl
  | [], _ :: _, h => by simp at h
  | _ :: _, [], h => by simp at h
  | f₁ :: t₁, f₂ :: t₂, h => by
    simp only [List.map_cons, List.cons.injEq] at h
    obtain ⟨hc, ht⟩ := h
    have h1 : f₁.rcs = f₂.rcs := congrArg (fun x => x.1) hc
    have h2 : f₁.file = f₂.file := congrArg (fun x => x.2.1) hc
    have h3 : f₁.revs = f₂.revs := congrArg (fun x => x.2.2) hc
    simp only [revsbydate, List.flatMap_cons]
    rw [h1, h2, h3]
    have hrest := revsbydate_congr ht
    simp only [revsbydate] at hrest
    rw [hrest]

/-- C10: `rcscluster` never reads the `head` and overall-description fields
of a parsed file record: two inputs that agree file-by-file on repository
path, working path and revisions produce identical outputs no matter how
those two fields differ. -/
theorem C10_head_desc_unread (rm₁ rm₂ : List FileLog) (smalltimesep bigtimesep : Int)
    (h : rm₁.map coreOf = rm₂.map coreOf) :
    rcscluster rm₁ smalltimesep bigtimesep = rcscluster rm₂ smalltimesep bigtimesep := by
  have hrev := revsbydate_congr h
  simp only [rcscluster]
  rw [hrev]

def rmC10a : List FileLog :=
  [⟨"f,v", "f", some "1.2", some "a top description\n",
    [("1.1", ⟨"m\n", "alice", "2020/02/19 10:00:00", 1582106400⟩)]⟩]

def rmC10b : List FileLog :=
  [⟨"f,v", "f", none, none,
    [("1.1", ⟨"m\n", "alice", "2020/02/19 10:00:00", 1582106400⟩)]⟩]

theorem C10_head_desc_unread_witness :
    rcscluster rmC10a 10 3600 = rcscluster rmC10b 10 3600 :=
  C10_head_desc_unread rmC10a rmC10b 10 3600 (by decide)

/-! ### The parser `rlogparse`

Marker strings of lines 32-40 of the source.  Input lines are modelled
already decoded and stripped of their single trailing newline (line 52
`line.decode().rstrip('\n')`). -/

def krfile : String := "RCS file:"

def kwfile : String := "Working file:"

def khead : String := "head:"

def kdesc : String := "description:"

def krev : String := "revision"

def krevdate : String := "date:"

def kauth : String := "author:"

def kblockend : String := String.mk (List.replicate 28 '-')

def kend : String := String.mk (List.replicate 77 '=')

/-- The field key `fdesc = "desc"` (line 17): the source stores it in
`inblock` to mean "capturing the overall description", alongside revision
ids, so it is an ordinary string here too. -/
def fdesc : String := "desc"

/-- Python `str.startswith` on code points. -/
def chPref : List Char → List Char → Bool
  | [], _ => true
  | _ :: _, [] => false
  | a :: as, b :: bs => a == b && chPref as bs

def pystartswith (s p : String) : Bool := chPref p.data s.data

/-- Python slice `s[n:]` (indices are code points). -/
def pydrop (s : String) (n : Nat) : String := ⟨s.data.drop n⟩

/-- Python `i = s.find(c)` followed by the slices `s[:i]` and `s[i+1:]`:
split at the first occurrence of `c`; `none` when `c` does not occur
(`find` returns -1 and the caller's assert fires). -/
def pysplitc (c : Char) (s : String) : Option (String × String) :=
  match s.data.dropWhile (fun x => x ≠ c) with
  | [] => none
  | _ :: tail => some (⟨s.data.takeWhile (fun x => x ≠ c)⟩, ⟨tail⟩)

/-- `vrevnum.find('\t')`, keep the part before the tab when present
(lines 84-86). -/
def beforeTab (s : String) : String := ⟨s.data.takeWhile (fun x => x ≠ '\t')⟩

/-- A parsed `datetime` value: the validated components (the clusterer-side
`dt : Int` is this value's epoch timestamp; the parser claims never use the
numeric value). -/
structure DT where
  year : Nat
  month : Nat
  day : Nat
  hour : Nat
  minute : Nat
  second : Nat
deriving DecidableEq, Repr

def isLeap (y : Nat) : Bool := (y % 4 == 0 && y % 100 != 0) || y % 400 == 0

def daysInMonth (y m : Nat) : Nat :=
  if m = 2 then (if isLeap y then 29 else 28)
  else if m = 4 ∨ m = 6 ∨ m = 9 ∨ m = 11 then 30 else 31

def digitsVal (ds : List Char) : Nat := ds.foldl (fun n c => n * 10 + (c.toNat - 48)) 0

/-- Model of `datetime.strptime(sdate, "%Y/%m/%d %H:%M:%S")` (line 94).
CPython compiles the format to a regex in which `%Y` matches exactly four
digits, `%m`/`%d`/`%H`/`%M`/`%S` match one or two digits, a literal space
matches a run of whitespace, and the whole string must be consumed; the
`datetime` constructor then validates the ranges (year >= 1, month 1-12,
day up to the month length, hour <= 23, minute <= 59, second <= 59 — the
`%S` pattern itself admits 60/61 but the constructor rejects them).
`none` models a raised `ValueError`. -/
def strptimeRCS (s : String) : Option DT :=
  let cs := s.data
  let yd := cs.takeWhile Char.isDigit
  let cs := cs.dropWhile Char.isDigit
  if yd.length ≠ 4 then none else
  match cs with
  | '/' :: cs =>
    let md := cs.takeWhile Char.isDigit
    let cs := cs.dropWhile Char.isDigit
    if md.length = 0 ∨ md.length > 2 then none else
    match cs with
    | '/' :: cs =>
      let dd := cs.takeWhile Char.isDigit
      let cs := cs.dropWhile Char.isDigit
      if dd.length = 0 ∨ dd.length > 2 then none else
      let ws := cs.takeWhile pyIsSpace
      let cs := cs.dropWhile pyIsSpace
      if ws.length = 0 then none else
      let hd := cs.takeWhile Char.isDigit
      let cs := cs.dropWhile Char.isDigit
      if hd.length = 0 ∨ hd.length > 2 then none else
      match cs with
      | ':' :: cs =>
        let mind := cs.takeWhile Char.isDigit
        let cs := cs.dropWhile Char.isDigit
        if mind.length = 0 ∨ mind.length > 2 then none else
        match cs with
        | ':' :: cs =>
          let sd := cs.takeWhile Char.isDigit
          let cs := cs.dropWhile Char.isDigit
          if sd.length = 0 ∨ sd.length > 2 then none else
          if cs ≠ [] then none else
          let y := digitsVal yd
          let mo := digitsVal md
          let d := digitsVal dd
          let h := digitsVal hd
          let mi := digitsVal mind
          let se := digitsVal sd
          if 1 ≤ y ∧ 1 ≤ mo ∧ mo ≤ 12 ∧ 1 ≤ d ∧ d ≤ daysInMonth y mo ∧
              h ≤ 23 ∧ mi ≤ 59 ∧ se ≤ 59 then
            some ⟨y, mo, d, h, mi, se⟩
          else none
        | _ => none
      | _ => none
    | _ => none
  | _ => none

/-- One revision's parsed entry (line 103):
`{fdesc: "", fauth: sauth, fdate: sdate, fdt: dt}`. -/
structure PRev where
  desc : String
  auth : String
  date : String
  dt : DT
deriving DecidableEq, Repr

/-- One file's parsed dict (line 55): keys `rcs`, `file`, `head`, `desc`,
`revs`.  Every scalar field is `None` until its marker line occurs.  The
revision keys are `Option String` because the pending `vrevnum` may be the
Python `None` (a date line with no preceding revision line inserts under
the key `None`). -/
structure PFileLog where
  rcs : Option String
  wfile : Option String
  head : Option String
  desc : Option String
  revs : List (Option String × PRev)
deriving DecidableEq, Repr

/-- The parser's loop state (lines 44-50): the `newfile` flag, the five
per-record variables, the pending revision number `vrevnum` (outer `none`
models "never assigned", i.e. a read raises `NameError`; the source does
not reset it per record), and the accumulated `rcsmeta`. -/
structure PState where
  newfile : Bool
  vrfile : Option String
  vwfile : Option String
  vhead : Option String
  vdesc : Option String
  inblock : Option String
  vrevnum : Option (Option String)
  vrevs : List (Option String × PRev)
  rcsmeta : List PFileLog
deriving DecidableEq, Repr

/-- The per-record reset of lines 47-50, performed at the top of the
iteration that follows a terminator line.  `vrevnum` is deliberately not
reset, matching the source. -/
def resetIfNew (st : PState) : PState :=
  if st.newfile then
    { st with newfile := false, vrfile := none, vwfile := none, vhead := none,
              vdesc := none, inblock := none, vrevs := [] }
  else st

/-- `vrevs[inblock][fdesc] += s + "\n"` (line 68): append to the
description of the entry with the given key; `none` models the (here
unreachable) `KeyError`. -/
def updateRevDesc : List (Option String × PRev) → Option String → String →
    Option (List (Option String × PRev))
  | [], _, _ => none
  | (k, r) :: rest, key, s =>
    if k = key then some ((k, { r with desc := r.desc ++ s ++ "\n" }) :: rest)
    else (updateRevDesc rest key s).map ((k, r) :: ·)

/-- The `date:` branch (lines 88-103): split on the first semicolon
(fatal if absent), parse the date token (fatal if malformed), require the
`author:` label (fatal if absent), split the author sub-field on its
semicolon (fatal if absent), then move the pending `vrevnum` into
`inblock` (a never-assigned `vrevnum` is a fatal `NameError`), assert the
revision id is fresh (fatal otherwise) and insert the new entry. -/
def dateBranch (st : PState) (s : String) : Except String PState :=
  let sdate0 := pystrip (pydrop s (krevdate.length + 1))
  match pysplitc ';' sdate0 with
  | none => .error ("AssertionError: no semicolon in " ++ sdate0)
  | some (sdate, rest) =>
    let sauth := pystrip rest
    match strptimeRCS sdate with
    | none => .error ("ValueError: time data " ++ sdate ++ " does not match format")
    | some dt =>
      if pystartswith sauth kauth then
        let sauth2 := pystrip (pydrop sauth (kauth.length + 1))
        match pysplitc ';' sauth2 with
        | none => .error ("AssertionError: no semicolon in " ++ sauth2)
        | some (sauth3, _) =>
          match st.vrevnum with
          | none => .error "NameError: name vrevnum is not defined"
          | some vr =>
            if (st.vrevs.map Prod.fst).contains vr then
              .error "AssertionError: duplicate revision id"
            else
              .ok { st with
                      inblock := vr, vrevnum := some none,
                      vrevs := st.vrevs ++ [(vr, ⟨"", sauth3, sdate, dt⟩)] }
      else .error ("AssertionError: no " ++ kauth ++ " in " ++ sauth)

/-- The body of one loop iteration after the per-record reset
(lines 54-103), in the source's branch order: terminator, block separator
(only while capturing), text capture, then the structural prefixes, and
finally the inert fallthrough. -/
def pbody (st : PState) (s : String) : Except String PState :=
  if s = kend then
    .ok { st with
            newfile := true,
            rcsmeta := st.rcsmeta ++ [⟨st.vrfile, st.vwfile, st.vhead, st.vdesc, st.vrevs⟩] }
  else if s = kblockend ∧ st.inblock ≠ none then
    .ok { st with inblock := none }
  else
    match st.inblock with
    | some ib =>
      if ib = fdesc then
        match st.vdesc with
        | some v => .ok { st with vdesc := some (v ++ s ++ "\n") }
        | none => .error "TypeError: unsupported operand"
      else
        match updateRevDesc st.vrevs (some ib) s with
        | some revs => .ok { st with vrevs := revs }
        | none => .error ("KeyError: " ++ ib)
    | none =>
      if pystartswith s krfile then
        .ok { st with vrfile := some (pystrip (pydrop s (krfile.length + 1))) }
      else if pystartswith s kwfile then
        .ok { st with vwfile := some (pystrip (pydrop s (kwfile.length + 1))) }
      else if pystartswith s khead then
        .ok { st with vhead := some (pystrip (pydrop s (khead.length + 1))) }
      else if pystartswith s kdesc then
        .ok { st with inblock := some fdesc, vdesc := some "" }
      else if pystartswith s krev then
        .ok { st with
                vrevnum := some (some (beforeTab (pystrip (pydrop s (krev.length + 1))))) }
      else if pystartswith s krevdate then
        dateBranch st s
      else .ok st

/-- One iteration of the parser loop (lines 46-103). -/
def pstep (st0 : PState) (s : String) : Except String PState :=
  pbody (resetIfNew st0) s

/-- The parser loop: fold `pstep` over the input lines, propagating the
first raised exception. -/
def runLines : PState → List String → Except String PState
  | st, [] => .ok st
  | st, l :: ls =>
    match pstep st l with
    | .ok st' => runLines st' ls
    | .error e => .error e

/-- The initial state (lines 44-45): `newfile = True`, nothing assigned. -/
def pinit : PState := ⟨true, none, none, none, none, none, none, [], []⟩

/-- `rlogparse` (lines 24-105) on an already-decoded list of input lines,
each stripped of its single trailing newline.  The result is the
accumulated `rcsmeta`; a record not closed by a terminator line when the
stream ends is discarded, and a raised exception aborts the run. -/
def rlogparse (lines : List String) : Except String (List PFileLog) :=
  (runLines pinit lines).map PState.rcsmeta

/-! ### Claim C7 -/

theorem updateRevDesc_keys : ∀ {l : List (Option String × PRev)} {key : Option String}
    {s : String} {l' : List (Option String × PRev)},
    updateRevDesc l key s = some l' → l'.map Prod.fst = l.map Prod.fst
  | [], _, _, _, h => by simp [updateRevDesc] at h
  | (k, r) :: rest, key, s, l', h => by
    rw [updateRevDesc] at h
    by_cases hk : k = key
    · rw [if_pos hk, Option.some.injEq] at h
      subst h
      simp
    · rw [if_neg hk] at h
      cases hrec : updateRevDesc rest key s with
      | none => rw [hrec] at h; exact absurd h (by simp)
      | some rest' =>
        rw [hrec] at h
        simp only [Option.map_some', Option.some.injEq] at h
        subst h
        simp [updateRevDesc_keys hrec]

/-- The parser's uniqueness invariant: every emitted record, and the record
under construction, has pairwise-distinct revision keys. -/
def PInv (st : PState) : Prop :=
  (∀ fl ∈ st.rcsmeta, (fl.revs.map Prod.fst).Nodup) ∧ (st.vrevs.map Prod.fst).Nodup

theorem pinv_reset {st : PState} (h : PInv st) : PInv (resetIfNew st) := by
  rw [resetIfNew]
  split_ifs
  · exact ⟨h.1, by simp⟩
  · exact h

theorem dateBranch_inv {st : PState} {s : String} {st' : PState}
    (h : dateBranch st s = .ok st') (hinv : PInv st) : PInv st' := by
  rw [dateBranch] at h
  cases hs₁ : pysplitc ';' (pystrip (pydrop s (krevdate.length + 1))) with
  | none => rw [hs₁] at h; exact absurd h (by simp)
  | some dr =>
    rw [hs₁] at h
    obtain ⟨sdate, rest⟩ := dr
    dsimp only at h
    cases hs₂ : strptimeRCS sdate with
    | none => rw [hs₂] at h; exact absurd h (by simp)
    | some dt =>
      rw [hs₂] at h
      try dsimp only at h
      by_cases hs₃ : pystartswith (pystrip rest) kauth = true
      · rw [if_pos hs₃] at h
        try dsimp only at h
        cases hs₄ : pysplitc ';' (pystrip (pydrop (pystrip rest) (kauth.length + 1))) with
        | none => rw [hs₄] at h; exact absurd h (by simp)
        | some ar =>
          rw [hs₄] at h
          obtain ⟨sauth3, arest⟩ := ar
          try dsimp only at h
          cases hs₅ : st.vrevnum with
          | none => rw [hs₅] at h; exact absurd h (by simp)
          | some vr =>
            rw [hs₅] at h
            try dsimp only at h
            by_cases hs₆ : ((st.vrevs.map Prod.fst).contains vr) = true
            · rw [if_pos hs₆] at h; exact absurd h (by simp)
            · rw [if_neg hs₆] at h
              rw [Except.ok.injEq] at h
              subst h
              refine ⟨hinv.1, ?_⟩
              have hvr : vr ∉ st.vrevs.map Prod.fst := fun hmem => hs₆ (by simpa using hmem)
              simp only [List.map_append, List.map_cons, List.map_nil]
              rw [List.nodup_append]
              refine ⟨hinv.2, List.nodup_singleton _, ?_⟩
              intro y hy
              simp only [List.mem_singleton]
              intro hn
              subst hn
              exact hvr hy
      · rw [if_neg hs₃] at h
        exact absurd h (by simp)

theorem pbody_inv {st : PState} {s : String} {st' : PState}
    (h : pbody st s = .ok st') (hinv : PInv st) : PInv st' := by
  rw [pbody] at h
  by_cases h₁ : s = kend
  · rw [if_pos h₁, Except.ok.injEq] at h
    subst h
    refine ⟨?_, hinv.2⟩
    intro fl hfl
    rcases List.mem_append.mp hfl with hm | hm
    · exact hinv.1 fl hm
    · rw [List.mem_singleton] at hm
      subst hm
      exact hinv.2
  · rw [if_neg h₁] at h
    by_cases h₂ : s = kblockend ∧ st.inblock ≠ none
    · rw [if_pos h₂, Except.ok.injEq] at h
      subst h
      exact hinv
    · rw [if_neg h₂] at h
      cases hib : st.inblock with
      | some ib =>
        rw [hib] at h
        dsimp only at h
        by_cases h₃ : ib = fdesc
        · rw [if_pos h₃] at h
          cases hd : st.vdesc with
          | none => rw [hd] at h; exact absurd h (by simp)
          | some v =>
            rw [hd, Except.ok.injEq] at h
            subst h
            exact hinv
        · rw [if_neg h₃] at h
          cases hu : updateRevDesc st.vrevs (some ib) s with
          | none => rw [hu] at h; exact absurd h (by simp)
          | some revs =>
            rw [hu, Except.ok.injEq] at h
            subst h
            exact ⟨hinv.1, by rw [updateRevDesc_keys hu]; exact hinv.2⟩
      | none =>
        rw [hib] at h
        dsimp only at h
        by_cases p₁ : pystartswith s krfile
        · rw [if_pos p₁, Except.ok.injEq] at h; subst h; exact hinv
        · rw [if_neg p₁] at h
          by_cases p₂ : pystartswith s kwfile
          · rw [if_pos p₂, Except.ok.injEq] at h; subst h; exact hinv
          · rw [if_neg p₂] at h
            by_cases p₃ : pystartswith s khead
            · rw [if_pos p₃, Except.ok.injEq] at h; subst h; exact hinv
            · rw [if_neg p₃] at h
              by_cases p₄ : pystartswith s kdesc
              · rw [if_pos p₄, Except.ok.injEq] at h; subst h; exact hinv
              · rw [if_neg p₄] at h
                by_cases p₅ : pystartswith s krev
                · rw [if_pos p₅, Except.ok.injEq] at h; subst h; exact hinv
                · rw [if_neg p₅] at h
                  by_cases p₆ : pystartswith s krevdate
                  · rw [if_pos p₆] at h
                    exact dateBranch_inv h hinv
                  · rw [if_neg p₆, Except.ok.injEq] at h; subst h; exact hinv

theorem runLines_inv : ∀ {lines : List String} {st st' : PState},
    runLines st lines = .ok st' → PInv st → PInv st'
  | [], st, st', h, hinv => by
    rw [runLines, Except.ok.injEq] at h
    subst h
    exact hinv
  | l :: ls, st, st', h, hinv => by
    rw [runLines] at h
    cases hp : pstep st l with
    | error e => rw [hp] at h; exact absurd h (by simp)
    | ok st₁ =>
      rw [hp] at h
      have h₁ : PInv st₁ := pbody_inv hp (pinv_reset hinv)
      exact runLines_inv h h₁

/-- An rlog stream whose file block lists revision id `1.1` twice. -/
def dupRevLines : List String :=
  ["RCS file: f,v", "Working file: f", "revision 1.1",
   "date: 2020/02/19 10:00:00;  author: alice;  state: Exp;", "first", kblockend,
   "revision 1.1", "date: 2020/02/20 10:00:00;  author: alice;  state: Exp;", kend]

/-- C7: a revision id already recorded in the record under construction is
fatal.  (1) In any successful run every emitted record has pairwise
distinct revision keys — the `assert inblock not in vrevs` (line 102)
admits no duplicate, never overwriting or skipping; (2) on a stream that
repeats revision id `1.1` in one block, `rlogparse` aborts with the
assertion error. -/
theorem C7_duplicate_revision_fatal :
    (∀ lines ms, rlogparse lines = .ok ms → ∀ fl ∈ ms, (fl.revs.map Prod.fst).Nodup) ∧
    (∃ msg, rlogparse dupRevLines = .error msg) := by
  constructor
  · intro lines ms h fl hfl
    rw [rlogparse] at h
    cases hr : runLines pinit lines with
    | error e => rw [hr] at h; exact absurd h (by simp [Except.map])
    | ok st =>
      rw [hr] at h
      simp only [Except.map, Except.ok.injEq] at h
      have hinv := runLines_inv hr ⟨fun fl hfl => by simp [pinit] at hfl, by decide⟩
      subst h
      exact hinv.1 fl hfl
  · exact ⟨_, rfl⟩

/-- A well-formed single-record stream. -/
def goodLines : List String :=
  ["RCS file: f,v", "Working file: f", "head: 1.1", "revision 1.1",
   "date: 2020/02/19 10:00:00;  author: alice;  state: Exp;", "msg", kblockend, kend]

/-- The record parsed from `goodLines`. -/
def goodFL : PFileLog :=
  ⟨some "f,v", some "f", some "1.1", none,
   [(some "1.1", ⟨"msg\n", "alice", "2020/02/19 10:00:00", ⟨2020, 2, 19, 10, 0, 0⟩⟩)]⟩

theorem C7_duplicate_revision_fatal_witness :
    rlogparse goodLines = .ok [goodFL] ∧ (goodFL.revs.map Prod.fst).Nodup :=
  ⟨rfl, C7_duplicate_revision_fatal.1 goodLines [goodFL] rfl goodFL (by simp)⟩

/-! ### Claim C8 -/

theorem chPref_exists : ∀ {p l : List Char}, chPref p l = true → ∃ t, l = p ++ t
  | [], l, _ => ⟨l, rfl⟩
  | _ :: _, [], h => by simp [chPref] at h
  | a :: as, b :: bs, h => by
    simp only [chPref, Bool.and_eq_true, beq_iff_eq] at h
    obtain ⟨t, ht⟩ := chPref_exists h.2
    exact ⟨t, by simp [ht, h.1]⟩

theorem ne_of_data_head {s q : String} {c : Char} {t : List Char}
    (hs : s.data = c :: t) (hq : q.data.head? ≠ some c) : s ≠ q := by
  intro he
  apply hq
  rw [← he, hs]
  rfl

/-- The fatal conditions of the combined date/author line, stated on the
stripped text after the `date:` label: the first semicolon is missing, or
the date token before it does not parse, or the sub-field after it is not
prefixed by the `author:` label, or the semicolon terminating the author
sub-field is missing. -/
def badDateLineB (s0 : String) : Bool :=
  match pysplitc ';' s0 with
  | none => true
  | some (d, rest) =>
    (strptimeRCS d).isNone ||
    !(pystartswith (pystrip rest) kauth) ||
    (pysplitc ';' (pystrip (pydrop (pystrip rest) (kauth.length + 1)))).isNone

theorem dateBranch_error_of_bad {st : PState} {s : String}
    (hbad : badDateLineB (pystrip (pydrop s (krevdate.length + 1))) = true) :
    ∃ msg, dateBranch st s = .error msg := by
  rw [badDateLineB] at hbad
  rw [dateBranch]
  cases hs₁ : pysplitc ';' (pystrip (pydrop s (krevdate.length + 1))) with
  | none => exact ⟨_, rfl⟩
  | some dr =>
    rw [hs₁] at hbad
    obtain ⟨d, rest⟩ := dr
    dsimp only at hbad ⊢
    cases hs₂ : strptimeRCS d with
    | none => exact ⟨_, rfl⟩
    | some dt =>
      rw [hs₂] at hbad
      simp only [Option.isNone_some, Bool.false_or] at hbad
      dsimp only
      cases hs₃ : pystartswith (pystrip rest) kauth with
      | false => exact ⟨_, rfl⟩
      | true =>
        rw [hs₃] at hbad
        simp only [Bool.not_true, Bool.false_or] at hbad
        try dsimp only
        cases hs₄ : pysplitc ';' (pystrip (pydrop (pystrip rest) (kauth.length + 1))) with
        | none => exact ⟨_, rfl⟩
        | some ar =>
          rw [hs₄] at hbad
          exact absurd hbad (by simp)

theorem runLines_append : ∀ (xs : List String) (st : PState) (ys : List String),
    runLines st (xs ++ ys) =
      (match runLines st xs with
       | .ok st' => runLines st' ys
       | .error e => .error e)
  | [], _, _ => rfl
  | x :: xs, st, ys => by
    rw [List.cons_append]
    simp only [runLines]
    cases hp : pstep st x with
    | ok st₁ => exact runLines_append xs st₁ ys
    | error e => rfl

/-- Dispatch of a `date:`-prefixed line while not capturing text: it cannot
be the terminator or separator (those start with `=` and `-`), matches no
earlier structural prefix, and reaches the date branch. -/
theorem pbody_date {st : PState} {s : String} {t : List Char}
    (hsd : s.data = krevdate.data ++ t) (hib : st.inblock = none) :
    pbody st s = dateBranch st s := by
  have hsd' : s.data = 'd' :: 'a' :: 't' :: 'e' :: ':' :: t := hsd.trans rfl
  have hne₁ : s ≠ kend := ne_of_data_head hsd' (by decide)
  have hne₂ : s ≠ kblockend := ne_of_data_head hsd' (by decide)
  have h1 : pystartswith s krfile = false := by
    simp only [pystartswith]; rw [hsd']; rfl
  have h2 : pystartswith s kwfile = false := by
    simp only [pystartswith]; rw [hsd']; rfl
  have h3 : pystartswith s khead = false := by
    simp only [pystartswith]; rw [hsd']; rfl
  have h4 : pystartswith s kdesc = false := by
    simp only [pystartswith]; rw [hsd']; rfl
  have h5 : pystartswith s krev = false := by
    simp only [pystartswith]; rw [hsd']; rfl
  have h6 : pystartswith s krevdate = true := by
    simp only [pystartswith]; rw [hsd']; rfl
  rw [pbody, if_neg hne₁, if_neg (fun hc => hne₂ hc.1), hib]
  dsimp only
  simp only [h1, h2, h3, h4, h5, h6, Bool.false_eq_true, if_false, if_true]

/-- C8: processing a combined date/author line aborts the parse whenever
the first semicolon is missing, the date token does not parse under
`%Y/%m/%d %H:%M:%S`, the author sub-field is not literally prefixed by
`author:`, or the semicolon terminating the author sub-field is missing
(asserts at lines 91/95/98, `strptime` at line 94): for any run that
reaches such a line outside a capture block, `rlogparse` returns an
error. -/
theorem C8_malformed_date_line_fatal (pre post : List String) (st : PState) (s : String)
    (hrun : runLines pinit pre = .ok st)
    (hnf : st.newfile = false)
    (hib : st.inblock = none)
    (hdate : pystartswith s krevdate = true)
    (hbad : badDateLineB (pystrip (pydrop s (krevdate.length + 1))) = true) :
    ∃ msg, rlogparse (pre ++ s :: post) = .error msg := by
  obtain ⟨msg, herr⟩ := @dateBranch_error_of_bad st s hbad
  obtain ⟨t, hsd⟩ := chPref_exists hdate
  have hbody : pbody st s = .error msg := by
    rw [pbody_date hsd hib]
    exact herr
  have hstep : pstep st s = .error msg := by
    have hr : resetIfNew st = st := by simp [resetIfNew, hnf]
    show pbody (resetIfNew st) s = .error msg
    rw [hr]
    exact hbody
  refine ⟨msg, ?_⟩
  rw [rlogparse, runLines_append pre pinit (s :: post), hrun]
  dsimp only
  simp only [runLines]
  rw [hstep]
  rfl

/-- The one-record prefix used by the C8 witness. -/
def c8pre : List String := ["RCS file: f,v", "Working file: f"]

theorem C8_malformed_date_line_fatal_witness :
    ∃ msg, rlogparse (c8pre ++ "date: garbage" :: []) = .error msg :=
  C8_malformed_date_line_fatal c8pre [] _ "date: garbage" rfl rfl rfl rfl rfl

/-! ### Claim C9 -/

theorem runLines_capture : ∀ (ls rest : List String) (st : PState) (ib : String) (rv : PRev),
    (∀ l ∈ ls, l ≠ kend ∧ l ≠ kblockend) →
    st.newfile = false → st.inblock = some ib → ib ≠ fdesc →
    st.vrevs = [(some ib, rv)] →
    runLines st (ls ++ rest) =
      runLines { st with vrevs := [(some ib,
        { rv with desc := ls.foldl (fun acc l => acc ++ l ++ "\n") rv.desc })] } rest
  | [], rest, st, ib, rv, _, _, _, _, hv => by
    have h1 : ({ rv with desc := List.foldl (fun acc l => acc ++ l ++ "\n") rv.desc [] } :
        PRev) = rv := rfl
    rw [List.nil_append, h1, ← hv]
  | l :: ls, rest, st, ib, rv, hls, hnf, hib, hibd, hv => by
    have hl := hls l (by simp)
    have hstep : pstep st l =
        .ok { st with vrevs := [(some ib, { rv with desc := rv.desc ++ l ++ "\n" })] } := by
      have hr : resetIfNew st = st := by simp [resetIfNew, hnf]
      show pbody (resetIfNew st) l = _
      rw [hr, pbody, if_neg hl.1, if_neg (fun hc => hl.2 hc.1), hib]
      dsimp only
      rw [if_neg hibd, hv, updateRevDesc, if_pos rfl]
    rw [List.cons_append]
    simp only [runLines]
    rw [hstep]
    dsimp only
    rw [runLines_capture ls rest
      { st with vrevs := [(some ib, { rv with desc := rv.desc ++ l ++ "\n" })] } ib
      ({ rv with desc := rv.desc ++ l ++ "\n" })
      (fun x hx => hls x (List.mem_cons_of_mem l hx)) hnf hib hibd rfl]
    rfl

/-- A well-formed single-record rlog stream whose single revision's
description consists of the given lines. -/
def descRecord (ls : List String) : List String :=
  ["RCS file: f,v", "Working file: f", "revision 1.1",
   "date: 2020/02/19 10:00:00;  author: alice;  state: Exp;"] ++ ls ++ [kblockend, kend]

/-- The parser state after the four header lines of `descRecord`. -/
def descState : PState :=
  ⟨false, some "f,v", some "f", none, none, some "1.1", some none,
   [(some "1.1", ⟨"", "alice", "2020/02/19 10:00:00", ⟨2020, 2, 19, 10, 0, 0⟩⟩)], []⟩

/-- C9: for a revision description spanning the physical lines `ls`, none
of which is the block separator or the terminator, the parsed description
is exactly the lines in order, each with its newline restored (lines
64-68: every captured line is appended verbatim plus `"\n"`). -/
theorem C9_description_roundtrip (ls : List String)
    (h : ∀ l ∈ ls, l ≠ kend ∧ l ≠ kblockend) :
    rlogparse (descRecord ls) =
      .ok [⟨some "f,v", some "f", none, none,
        [(some "1.1", ⟨ls.foldl (fun acc l => acc ++ l ++ "\n") "", "alice",
          "2020/02/19 10:00:00", ⟨2020, 2, 19, 10, 0, 0⟩⟩)]⟩] := by
  rw [rlogparse]
  have hpre : runLines pinit (descRecord ls) =
      runLines descState (ls ++ [kblockend, kend]) := rfl
  rw [hpre, runLines_capture ls [kblockend, kend] descState "1.1" _ h rfl rfl (by decide) rfl]
  rfl

theorem C9_description_roundtrip_witness :
    rlogparse (descRecord ["line one", "", "  line three  "]) =
      .ok [⟨some "f,v", some "f", none, none,
        [(some "1.1", ⟨"line one\n\n  line three  \n", "alice",
          "2020/02/19 10:00:00", ⟨2020, 2, 19, 10, 0, 0⟩⟩)]⟩] :=
  C9_description_roundtrip ["line one", "", "  line three  "] (by decide)
